import Mathlib

/-!
Verification of the adaptive downsampling and rendering-limit engine.

The definitions below are a shallow embedding of the chart-sampling and
axis-formatting utilities of the repository (`minMaxSample`, `evenSample`,
`calculateTicks`, `checkRenderingLimits`, `formatDateLabel`).  JavaScript
numbers are idealised as exact rationals, JavaScript reference equality on
array elements is modelled by decidable equality, and the value read from a
sampled field is modelled as `Option ℚ` (`none` plays the role of a value
whose `Number(...)` coercion is `NaN`, i.e. a missing or non-numeric value).
-/

/-- `Number(x) || 0`: a missing / non-numeric value is coerced to `0` for
comparison purposes; a numeric value is used as-is. -/
def jsNumOr0 : Option ℚ → ℚ
  | some q => q
  | none => 0

/-- Contiguous buckets of size `bs` (`data.slice(i, i + bs)` for
`i = 0, bs, 2*bs, ...`), written with explicit fuel so that the definition is
structurally recursive.  The fuel is always instantiated with the length of
the list, which is enough since every step consumes at least one element. -/
def chunkListF (bs : Nat) : Nat → List α → List (List α)
  | 0, _ => []
  | _, [] => []
  | fuel + 1, p :: rest => (p :: rest.take (bs - 1)) :: chunkListF bs fuel (rest.drop (bs - 1))

/-- The list of buckets of size `bs` that the sampling loop slices out. -/
def chunkList (bs : Nat) (l : List α) : List (List α) :=
  chunkListF bs l.length l

/-- State of the min/max scan over one bucket: the running extreme points and
their (coerced) values. -/
structure MMState (α : Type) where
  minPoint : α
  maxPoint : α
  minVal : ℚ
  maxVal : ℚ

/-- One iteration of `for (const point of bucket)`: update the running
minimum, then the running maximum. -/
def mmStep (cv : α → ℚ) (st : MMState α) (p : α) : MMState α :=
  let v := cv p
  let st1 := if v < st.minVal then ⟨p, st.maxPoint, v, st.maxVal⟩ else st
  if st1.maxVal < v then ⟨st1.minPoint, p, st1.minVal, v⟩ else st1

/-- The min/max scan of one bucket `b0 :: rest`, starting from
`minPoint = maxPoint = bucket[0]` and folding over the whole bucket. -/
def mmScan (cv : α → ℚ) (b0 : α) (rest : List α) : MMState α :=
  (b0 :: rest).foldl (mmStep cv) ⟨b0, b0, cv b0, cv b0⟩

/-- Emission for one bucket: an empty bucket is skipped, a singleton bucket
emits its point, otherwise the scan's min point and max point are emitted in
original order (`indexOf` comparison), the max point being dropped when it is
the same point as the min point. -/
def emitBucket [DecidableEq α] (cv : α → ℚ) : List α → List α
  | [] => []
  | [p] => [p]
  | b0 :: b1 :: rest =>
    let st := mmScan cv b0 (b1 :: rest)
    let minIndex := (b0 :: b1 :: rest).indexOf st.minPoint
    let maxIndex := (b0 :: b1 :: rest).indexOf st.maxPoint
    if minIndex ≤ maxIndex then
      st.minPoint :: (if st.minPoint ≠ st.maxPoint then [st.maxPoint] else [])
    else
      st.maxPoint :: (if st.minPoint ≠ st.maxPoint then [st.minPoint] else [])

/-- `Math.ceil(data.length / (maxPoints / 2))`.  For `maxPoints ≥ 1` this is
the exact ceiling `⌈2·len / maxPoints⌉`; for `maxPoints = 0` JavaScript
computes `len / Infinity` giving an infinite bucket size, so the single
bucket is the whole array, which the value `len` reproduces. -/
def bucketSizeOf (len maxPoints : Nat) : Nat :=
  if maxPoints = 0 then len else (2 * len + maxPoints - 1) / maxPoints

/-- The buckets the envelope sampler slices the data into. -/
def sampleBuckets (data : List α) (maxPoints : Nat) : List (List α) :=
  chunkList (bucketSizeOf data.length maxPoints) data

/-- `minMaxSample(data, maxPoints, valueKey)`: identity below the threshold,
otherwise per-bucket min/max emission. -/
def minMaxSample [DecidableEq α] (data : List α) (maxPoints : Nat)
    (valueKey : α → Option ℚ) : List α :=
  if data.length = 0 then []
  else if data.length ≤ maxPoints then data
  else ((sampleBuckets data maxPoints).map
    (emitBucket (fun p => jsNumOr0 (valueKey p)))).flatten

/-- `evenSample(data, maxPoints)`: identity below the threshold, otherwise
every `step`-th point (`step = Math.ceil(len / maxPoints)`; for
`maxPoints = 0` the JavaScript step is `Infinity`, reproduced by `len`),
followed by the forced append of the true last point when the last emitted
point is not that point. -/
def evenStep (len maxPoints : Nat) : Nat :=
  if maxPoints = 0 then len else (len + maxPoints - 1) / maxPoints

/-- The points emitted by the stride loop of `evenSample`
(`for (i = 0; i < len; i += step) push(data[i])`): the heads of the
consecutive chunks of size `step`. -/
def evenHeads (data : List α) (maxPoints : Nat) : List α :=
  (chunkList (evenStep data.length maxPoints) data).filterMap List.head?

def evenSample [DecidableEq α] (data : List α) (maxPoints : Nat) : List α :=
  match data with
  | [] => []
  | d0 :: rest =>
    if (d0 :: rest).length ≤ maxPoints then d0 :: rest
    else
      let result := evenHeads (d0 :: rest) maxPoints
      let last := (d0 :: rest).getLast (by simp)
      if result.getLast? ≠ some last then result ++ [last] else result

/-- Fuelled base-10 logarithm on naturals (`natLog10F n n` is
`⌊log10 n⌋` for `n ≥ 1`); written with fuel so the kernel can evaluate it. -/
def natLog10F : Nat → Nat → Nat
  | 0, _ => 0
  | fuel + 1, n => if n < 10 then 0 else natLog10F fuel (n / 10) + 1

/-- `⌊log10 n⌋` for `n ≥ 1` (and `0` for `n = 0`). -/
def natLog10 (n : Nat) : Nat := natLog10F n n

/-- `Math.floor(Math.log10 q)` for a positive rational `q`: the unique `e`
with `10^e ≤ q < 10^(e+1)`. -/
def floorLog10 (q : ℚ) : Int :=
  if 1 ≤ q then (natLog10 ⌊q⌋.toNat : Int)
  else
    let r := 1 / q
    let L := natLog10 ⌊r⌋.toNat
    if (10 : ℚ) ^ L = r then -(L : Int) else -(L : Int) - 1

/-- `Math.min(...data)` for a non-empty list (`0` on the empty list, which the
callers guard against). -/
def listMin : List ℚ → ℚ
  | [] => 0
  | x :: xs => xs.foldl min x

/-- `Math.max(...data)` for a non-empty list (`0` on the empty list). -/
def listMax : List ℚ → ℚ
  | [] => 0
  | x :: xs => xs.foldl max x

/-- The tick generation loop
`for (tick = start; tick <= max; tick += niceStep) { if (tick >= min) push; if (count >= maxTicks) break }`,
with explicit fuel.  Since `start ≤ min < start + niceStep`, at most one
iteration is skipped by the `tick >= min` guard, so `maxTicks + 2` fuel covers
every iteration the JavaScript loop performs. -/
def tickLoop (minV maxV step : ℚ) (maxTicks : Nat) : Nat → ℚ → Nat → List ℚ
  | 0, _, _ => []
  | fuel + 1, tick, cnt =>
    if tick ≤ maxV then
      if minV ≤ tick then
        tick :: (if maxTicks ≤ cnt + 1 then []
          else tickLoop minV maxV step maxTicks fuel (tick + step) (cnt + 1))
      else
        if maxTicks ≤ cnt then []
        else tickLoop minV maxV step maxTicks fuel (tick + step) cnt
    else []

/-- `roughStep = range / maxTicks`. -/
def roughStepOf (data : List ℚ) (maxTicks : Nat) : ℚ :=
  (listMax data - listMin data) / (maxTicks : ℚ)

/-- The "nice" step: `roughStep` normalised by its decade and rounded up to
the next of the multipliers 1, 2, 5, 10. -/
def niceStepOf (data : List ℚ) (maxTicks : Nat) : ℚ :=
  let roughStep := roughStepOf data maxTicks
  let magnitude := (10 : ℚ) ^ floorLog10 roughStep
  let normalized := roughStep / magnitude
  if normalized ≤ 1 then magnitude
  else if normalized ≤ 2 then 2 * magnitude
  else if normalized ≤ 5 then 5 * magnitude
  else 10 * magnitude

/-- `calculateTicks(data, maxTicks)`: "nice" axis tick values. -/
def calculateTicks (data : List ℚ) (maxTicks : Nat) : List ℚ :=
  if data.length = 0 then []
  else
    let minV := listMin data
    let maxV := listMax data
    if maxV - minV = 0 then [minV]
    else
      let niceStep := niceStepOf data maxTicks
      let start := (⌊minV / niceStep⌋ : ℚ) * niceStep
      tickLoop minV maxV niceStep maxTicks (maxTicks + 2) start 0

/-- Result of the rendering-limit guard: a data value, never an exception. -/
structure RenderingLimits where
  needsFallback : Bool
  reason : Option String
deriving DecidableEq

/-- `checkRenderingLimits(dataLength, categoryCount?)`.  The JavaScript guard
`categoryCount && categoryCount > MAX_CATEGORIES` is modelled by the
truthiness test `c ≠ 0` together with the comparison. -/
def checkRenderingLimits (dataLength : Nat) (categoryCount : Option Nat) :
    RenderingLimits :=
  if 500 * 2 < dataLength then
    ⟨true, some ((r"Too many data points (") ++ toString dataLength
      ++ (r") for chart rendering"))⟩
  else
    match categoryCount with
    | some c =>
      if c ≠ 0 ∧ 12 < c then
        ⟨true, some ((r"Too many categories (") ++ toString c
          ++ (r") for readable chart"))⟩
      else ⟨false, none⟩
    | none => ⟨false, none⟩

/-- A raw axis value: a JavaScript number or a string. -/
inductive AxisValue where
  | num (n : Int)
  | str (s : String)
deriving DecidableEq

/-- The granularity hint of `formatDateLabel`. -/
inductive DateGranularity where
  | year
  | month
  | day
  | auto
deriving DecidableEq

/-- `String(value)`. -/
def jsString : AxisValue → String
  | .num n => toString n
  | .str s => s

/-- `/^\d{4}$/.test(s)`: a bare 4-digit year. -/
def isBareYear (s : String) : Bool :=
  s.length = 4 && s.data.all Char.isDigit

/-- `/^\d{4}-\d{2}-\d{2}/.test(s)`: an ISO `YYYY-MM-DD` prefix. -/
def isoDateShape (s : String) : Bool :=
  match s.data with
  | a :: b :: c :: d :: e :: f :: g :: h :: i :: j :: _ =>
    a.isDigit && b.isDigit && c.isDigit && d.isDigit && e = '-'
      && f.isDigit && g.isDigit && h = '-' && i.isDigit && j.isDigit
  | _ => false

/-- The behaviour of the host's `Date` object on an ISO-prefixed string:
whether `new Date(str)` produces a valid date, and its local-time year, month
index and day of month.  The engine's formatter is proved correct for every
such environment. -/
structure DateEnv where
  parseOk : String → Bool
  fullYear : String → Int
  monthIndex : String → Fin 12
  dayOfMonth : String → Nat

/-- The abbreviated month names used by the formatter. -/
def monthNames : List String :=
  ["Jan", "Feb", "Mar", "Apr", "May", "Jun",
   "Jul", "Aug", "Sep", "Oct", "Nov", "Dec"]

/-- `formatDateLabel(value, format)`. -/
def formatDateLabel (env : DateEnv) (value : AxisValue)
    (format : DateGranularity) : String :=
  if (match value with | .num _ => true | .str _ => false)
      || isBareYear (jsString value) then
    jsString value
  else
    let str := jsString value
    if isoDateShape str then
      if env.parseOk str then
        if format = DateGranularity.year ∨ format = DateGranularity.auto then
          toString (env.fullYear str)
        else if format = DateGranularity.month then
          monthNames.getD (env.monthIndex str).val ("") ++ (" \x27")
            ++ (toString (env.fullYear str)).drop 2
        else if format = DateGranularity.day then
          monthNames.getD (env.monthIndex str).val ("") ++ (" ")
            ++ toString (env.dayOfMonth str)
        else str
      else str
    else str

/-- A `Date` environment that parses nothing; used to instantiate the
formatter theorems on concrete inputs. -/
def trivialDateEnv : DateEnv :=
  ⟨fun _ => false, fun _ => 0, fun _ => 0, fun _ => 0⟩

/-! ## Bucketing lemmas -/

theorem chunkListF_flatten {α : Type} (bs : Nat) :
    ∀ (fuel : Nat) (l : List α), l.length ≤ fuel →
      (chunkListF bs fuel l).flatten = l := by
  intro fuel
  induction fuel with
  | zero =>
    intro l hl
    have : l = [] := List.length_eq_zero.mp (Nat.le_zero.mp hl)
    subst this
    rfl
  | succ n ih =>
    intro l hl
    cases l with
    | nil => rfl
    | cons p rest =>
      simp only [chunkListF, List.flatten_cons]
      rw [ih (rest.drop (bs - 1))]
      · simp
      · have := List.length_drop (bs - 1) rest
        have hr : rest.length ≤ n := by
          simpa using Nat.le_of_succ_le_succ hl
        omega

theorem chunkList_flatten {α : Type} (bs : Nat) (l : List α) :
    (chunkList bs l).flatten = l :=
  chunkListF_flatten bs l.length l le_rfl

theorem chunkListF_mem_ne_nil {α : Type} (bs : Nat) :
    ∀ (fuel : Nat) (l : List α) (B : List α), B ∈ chunkListF bs fuel l → B ≠ [] := by
  intro fuel
  induction fuel with
  | zero => intro l B hB; simp [chunkListF] at hB
  | succ n ih =>
    intro l B hB
    cases l with
    | nil => simp [chunkListF] at hB
    | cons p rest =>
      simp only [chunkListF, List.mem_cons] at hB
      rcases hB with h | h
      · subst h; simp
      · exact ih _ _ h

theorem chunkList_mem_subset {α : Type} (bs : Nat) (l : List α) (B : List α)
    (hB : B ∈ chunkList bs l) : ∀ x ∈ B, x ∈ l := by
  intro x hx
  have := chunkList_flatten bs l
  rw [← this]
  exact List.mem_flatten.mpr ⟨B, hB, hx⟩

theorem flatten_map_sublist {α : Type} (f : List α → List α) :
    ∀ (L : List (List α)), (∀ B ∈ L, (f B).Sublist B) →
      ((L.map f).flatten).Sublist L.flatten := by
  intro L
  induction L with
  | nil => intro _; simp
  | cons B rest ih =>
    intro h
    simp only [List.map_cons, List.flatten_cons]
    exact (h B (by simp)).append (ih (fun C hC => h C (by simp [hC])))

theorem flatten_map_length_le {α : Type} (f : List α → List α) :
    ∀ (L : List (List α)), (∀ B ∈ L, (f B).length ≤ 2) →
      ((L.map f).flatten).length ≤ 2 * L.length := by
  intro L
  induction L with
  | nil => intro _; simp
  | cons B rest ih =>
    intro h
    simp only [List.map_cons, List.flatten_cons, List.length_append,
      List.length_cons]
    have h1 := h B (by simp)
    have h2 := ih (fun C hC => h C (by simp [hC]))
    omega

theorem chunkListF_length_le {α : Type} (bs : Nat) :
    ∀ (fuel : Nat) (l : List α) (k : Nat), l.length ≤ fuel →
      l.length ≤ bs * k → (chunkListF bs fuel l).length ≤ k := by
  intro fuel
  induction fuel with
  | zero =>
    intro l k hl _
    have : l = [] := List.length_eq_zero.mp (Nat.le_zero.mp hl)
    subst this
    simp [chunkListF]
  | succ n ih =>
    intro l k hl hk
    cases l with
    | nil => simp [chunkListF]
    | cons p rest =>
      have hk1 : 1 ≤ bs * k := le_trans (by simp) hk
      have hbs : 1 ≤ bs := by
        rcases Nat.eq_zero_or_pos bs with h | h
        · subst h; simp at hk1
        · exact h
      cases k with
      | zero => omega
      | succ k' =>
        simp only [chunkListF, List.length_cons]
        have hdrop : (rest.drop (bs - 1)).length ≤ n := by
          have := List.length_drop (bs - 1) rest
          have hr : rest.length + 1 ≤ n + 1 := by simpa using hl
          omega
        have hdrop2 : (rest.drop (bs - 1)).length ≤ bs * k' := by
          have := List.length_drop (bs - 1) rest
          have hlen : rest.length + 1 ≤ bs * (k' + 1) := by simpa using hk
          have : bs * (k' + 1) = bs * k' + bs := by ring
          omega
        have := ih (rest.drop (bs - 1)) k' hdrop hdrop2
        omega

/-- The heads of the buckets form a subsequence of the data. -/
theorem chunkListF_heads_sublist {α : Type} (bs : Nat) :
    ∀ (fuel : Nat) (l : List α),
      ((chunkListF bs fuel l).filterMap List.head?).Sublist l := by
  intro fuel
  induction fuel with
  | zero => intro l; simp [chunkListF]
  | succ n ih =>
    intro l
    cases l with
    | nil => simp [chunkListF]
    | cons p rest =>
      simp only [chunkListF, List.filterMap_cons, List.head?_cons]
      exact List.Sublist.cons₂ p ((ih _).trans (List.drop_sublist _ _))

/-! ## Min/max scan invariants -/

theorem mmStep_minVal_le (cv : α → ℚ) (st : MMState α) (p : α) :
    (mmStep cv st p).minVal ≤ st.minVal := by
  simp only [mmStep]
  split
  · split <;> simp <;> linarith
  · split <;> simp

theorem mmStep_minVal_le_cv (cv : α → ℚ) (st : MMState α) (p : α) :
    (mmStep cv st p).minVal ≤ cv p := by
  simp only [mmStep]
  split
  · split <;> simp
  · rename_i h
    push_neg at h
    split <;> simpa using h

theorem mmStep_minPoint_cases (cv : α → ℚ) (st : MMState α) (p : α) :
    (mmStep cv st p).minPoint = st.minPoint ∨ (mmStep cv st p).minPoint = p := by
  simp only [mmStep]
  split
  · split <;> simp
  · split <;> simp

theorem mmStep_min_attain (cv : α → ℚ) (st : MMState α) (p : α)
    (h : cv st.minPoint = st.minVal) :
    cv (mmStep cv st p).minPoint = (mmStep cv st p).minVal := by
  simp only [mmStep]
  split
  · split <;> simpa using h
  · split <;> simpa using h

theorem mmStep_maxVal_ge (cv : α → ℚ) (st : MMState α) (p : α) :
    st.maxVal ≤ (mmStep cv st p).maxVal := by
  simp only [mmStep]
  split
  · split <;> simp <;> linarith
  · split <;> simp <;> linarith

theorem mmStep_cv_le_maxVal (cv : α → ℚ) (st : MMState α) (p : α) :
    cv p ≤ (mmStep cv st p).maxVal := by
  simp only [mmStep]
  split
  · rename_i h
    split
    · simp
    · rename_i h2
      push_neg at h2
      simpa using h2
  · split
    · simp
    · rename_i h2
      push_neg at h2
      simpa using h2

theorem mmStep_maxPoint_cases (cv : α → ℚ) (st : MMState α) (p : α) :
    (mmStep cv st p).maxPoint = st.maxPoint ∨ (mmStep cv st p).maxPoint = p := by
  simp only [mmStep]
  split
  · split <;> simp
  · split <;> simp

theorem mmStep_max_attain (cv : α → ℚ) (st : MMState α) (p : α)
    (h : cv st.maxPoint = st.maxVal) :
    cv (mmStep cv st p).maxPoint = (mmStep cv st p).maxVal := by
  simp only [mmStep]
  split
  · split <;> simpa using h
  · split <;> simpa using h

/-- Invariants of the scan fold, for an arbitrary starting state. -/
theorem mm_foldl_inv (cv : α → ℚ) :
    ∀ (l : List α) (st : MMState α),
      (l.foldl (mmStep cv) st).minVal ≤ st.minVal
      ∧ (∀ q ∈ l, (l.foldl (mmStep cv) st).minVal ≤ cv q)
      ∧ ((l.foldl (mmStep cv) st).minPoint = st.minPoint
          ∨ (l.foldl (mmStep cv) st).minPoint ∈ l)
      ∧ (cv st.minPoint = st.minVal →
          cv (l.foldl (mmStep cv) st).minPoint = (l.foldl (mmStep cv) st).minVal)
      ∧ st.maxVal ≤ (l.foldl (mmStep cv) st).maxVal
      ∧ (∀ q ∈ l, cv q ≤ (l.foldl (mmStep cv) st).maxVal)
      ∧ ((l.foldl (mmStep cv) st).maxPoint = st.maxPoint
          ∨ (l.foldl (mmStep cv) st).maxPoint ∈ l)
      ∧ (cv st.maxPoint = st.maxVal →
          cv (l.foldl (mmStep cv) st).maxPoint = (l.foldl (mmStep cv) st).maxVal) := by
  intro l
  induction l with
  | nil => intro st; simp
  | cons p rest ih =>
    intro st
    simp only [List.foldl_cons]
    obtain ⟨h1, h2, h3, h4, h5, h6, h7, h8⟩ := ih (mmStep cv st p)
    refine ⟨le_trans h1 (mmStep_minVal_le cv st p), ?_, ?_, ?_,
      le_trans (mmStep_maxVal_ge cv st p) h5, ?_, ?_, ?_⟩
    · intro q hq
      rcases List.mem_cons.mp hq with h | h
      · rw [h]
        exact le_trans h1 (mmStep_minVal_le_cv cv st p)
      · exact h2 q h
    · rcases h3 with h | h
      · rcases mmStep_minPoint_cases cv st p with h' | h'
        · left; rw [h, h']
        · right; rw [h, h']; simp
      · right; simp [h]
    · intro hst
      exact h4 (mmStep_min_attain cv st p hst)
    · intro q hq
      rcases List.mem_cons.mp hq with h | h
      · rw [h]
        exact le_trans (mmStep_cv_le_maxVal cv st p) h5
      · exact h6 q h
    · rcases h7 with h | h
      · rcases mmStep_maxPoint_cases cv st p with h' | h'
        · left; rw [h, h']
        · right; rw [h, h']; simp
      · right; simp [h]
    · intro hst
      exact h8 (mmStep_max_attain cv st p hst)

/-- The scan of a bucket returns a member of the bucket attaining the minimum
coerced value, and one attaining the maximum. -/
theorem mmScan_spec (cv : α → ℚ) (b0 : α) (rest : List α) :
    (mmScan cv b0 rest).minPoint ∈ b0 :: rest
    ∧ (∀ q ∈ b0 :: rest, cv (mmScan cv b0 rest).minPoint ≤ cv q)
    ∧ (mmScan cv b0 rest).maxPoint ∈ b0 :: rest
    ∧ (∀ q ∈ b0 :: rest, cv q ≤ cv (mmScan cv b0 rest).maxPoint) := by
  obtain ⟨h1, h2, h3, h4, h5, h6, h7, h8⟩ :=
    mm_foldl_inv cv (b0 :: rest) (⟨b0, b0, cv b0, cv b0⟩ : MMState α)
  have hmin : cv (mmScan cv b0 rest).minPoint = (mmScan cv b0 rest).minVal := h4 rfl
  have hmax : cv (mmScan cv b0 rest).maxPoint = (mmScan cv b0 rest).maxVal := h8 rfl
  refine ⟨?_, ?_, ?_, ?_⟩
  · rcases h3 with h | h
    · have hb : (mmScan cv b0 rest).minPoint = b0 := h
      rw [hb]
      exact List.mem_cons_self b0 rest
    · exact h
  · intro q hq
    have h2' : (mmScan cv b0 rest).minVal ≤ cv q := h2 q hq
    rw [hmin]
    exact h2'
  · rcases h7 with h | h
    · have hb : (mmScan cv b0 rest).maxPoint = b0 := h
      rw [hb]
      exact List.mem_cons_self b0 rest
    · exact h
  · intro q hq
    have h6' : cv q ≤ (mmScan cv b0 rest).maxVal := h6 q hq
    rw [hmax]
    exact h6'

/-- If the whole list keeps the starting extreme values, the fold never moves
the state (used for the all-equal-values bucket). -/
theorem mm_foldl_const (cv : α → ℚ) :
    ∀ (l : List α) (st : MMState α),
      (∀ q ∈ l, cv q = st.minVal) → st.maxVal = st.minVal →
        l.foldl (mmStep cv) st = st := by
  intro l
  induction l with
  | nil => intro st _ _; rfl
  | cons p rest ih =>
    intro st hall hmax
    have hp : cv p = st.minVal := hall p (by simp)
    have hstep : mmStep cv st p = st := by
      simp [mmStep, hp, hmax]
    simp only [List.foldl_cons, hstep]
    exact ih st (fun q hq => hall q (by simp [hq])) hmax

/-! ## Order lemmas via `indexOf` -/

/-- Two distinct members of a list, in `indexOf` order, form a
two-element subsequence. -/
theorem pair_sublist_of_indexOf_le {α : Type} [DecidableEq α] {x y : α}
    {l : List α} (hx : x ∈ l) (hy : y ∈ l) (hxy : x ≠ y)
    (h : l.indexOf x ≤ l.indexOf y) : List.Sublist [x, y] l := by
  have hxl : l.indexOf x < l.length := List.indexOf_lt_length.mpr hx
  have hyl : l.indexOf y < l.length := List.indexOf_lt_length.mpr hy
  have hne : l.indexOf x ≠ l.indexOf y := by
    intro hEq
    apply hxy
    have h1 : l.get ⟨l.indexOf x, hxl⟩ = x := List.indexOf_get hxl
    have h2 : l.get ⟨l.indexOf y, hyl⟩ = y := List.indexOf_get hyl
    rw [← h1, ← h2]
    congr 1
    exact Fin.ext hEq
  have hlt : l.indexOf x < l.indexOf y := lt_of_le_of_ne h hne
  have hsplit : l = l.take (l.indexOf y) ++ l.drop (l.indexOf y) :=
    (List.take_append_drop _ l).symm
  have hdrop : l.drop (l.indexOf y) = y :: l.drop (l.indexOf y + 1) := by
    have := List.drop_eq_getElem_cons hyl
    rw [this]
    congr 1
    have : l.get ⟨l.indexOf y, hyl⟩ = y := List.indexOf_get hyl
    simpa using this
  have hxmem : x ∈ l.take (l.indexOf y) := by
    have hget : l.get ⟨l.indexOf x, hxl⟩ = x := List.indexOf_get hxl
    have hlt2 : l.indexOf x < (l.take (l.indexOf y)).length := by
      rw [List.length_take]
      omega
    have : (l.take (l.indexOf y))[l.indexOf x] = x := by
      rw [List.getElem_take]
      simpa using hget
    rw [← this]
    exact List.getElem_mem hlt2
  calc List.Sublist [x, y] (l.take (l.indexOf y) ++ y :: l.drop (l.indexOf y + 1)) := by
        have h1 : List.Sublist [x] (l.take (l.indexOf y)) :=
          List.singleton_sublist.mpr hxmem
        have h2 : List.Sublist [y] (y :: l.drop (l.indexOf y + 1)) :=
          (List.nil_sublist _).cons₂ y
        exact h1.append h2
    _ = l := by rw [← hdrop, ← hsplit]

theorem getLast_mem_of_eq {α : Type} {l : List α} {a : α}
    (h : l.getLast? = some a) : a ∈ l := by
  cases l with
  | nil => simp at h
  | cons x xs =>
    have hne : x :: xs ≠ [] := by simp
    rw [List.getLast?_eq_getLast_of_ne_nil hne] at h
    have := List.getLast_mem hne
    rwa [Option.some_inj.mp h] at this

/-! ## Emission lemmas -/

theorem emitBucket_length_le {α : Type} [DecidableEq α] (cv : α → ℚ)
    (B : List α) : (emitBucket cv B).length ≤ 2 := by
  match B with
  | [] => simp [emitBucket]
  | [p] => simp [emitBucket]
  | b0 :: b1 :: rest =>
    simp only [emitBucket]
    split
    · split <;> simp
    · split <;> simp

theorem emitBucket_sublist {α : Type} [DecidableEq α] (cv : α → ℚ)
    (B : List α) : (emitBucket cv B).Sublist B := by
  match B with
  | [] => simp [emitBucket]
  | [p] => simp [emitBucket]
  | b0 :: b1 :: rest =>
    obtain ⟨hminMem, _, hmaxMem, _⟩ := mmScan_spec cv b0 (b1 :: rest)
    set st := mmScan cv b0 (b1 :: rest) with hst
    simp only [emitBucket]
    split
    · rename_i hle
      split
      · rename_i hne
        exact pair_sublist_of_indexOf_le hminMem hmaxMem hne hle
      · rename_i hne
        exact List.singleton_sublist.mpr hminMem
    · rename_i hgt
      push_neg at hgt
      split
      · rename_i hne
        exact pair_sublist_of_indexOf_le hmaxMem hminMem (Ne.symm hne) (le_of_lt hgt)
      · rename_i hne
        exact List.singleton_sublist.mpr hmaxMem

theorem emitBucket_min_mem {α : Type} [DecidableEq α] (cv : α → ℚ)
    (B : List α) (hB : B ≠ []) :
    ∃ p ∈ emitBucket cv B, p ∈ B ∧ ∀ q ∈ B, cv p ≤ cv q := by
  match B with
  | [] => exact absurd rfl hB
  | [p] =>
    refine ⟨p, by simp [emitBucket], by simp, ?_⟩
    intro q hq
    rcases List.mem_singleton.mp hq with h
    rw [h]
  | b0 :: b1 :: rest =>
    obtain ⟨hminMem, hminLe, hmaxMem, _⟩ := mmScan_spec cv b0 (b1 :: rest)
    refine ⟨(mmScan cv b0 (b1 :: rest)).minPoint, ?_, hminMem, hminLe⟩
    simp only [emitBucket]
    split
    · split <;> simp
    · split
      · simp
      · rename_i hne
        push_neg at hne
        rw [← hne]
        simp

theorem emitBucket_max_mem {α : Type} [DecidableEq α] (cv : α → ℚ)
    (B : List α) (hB : B ≠ []) :
    ∃ p ∈ emitBucket cv B, p ∈ B ∧ ∀ q ∈ B, cv q ≤ cv p := by
  match B with
  | [] => exact absurd rfl hB
  | [p] =>
    refine ⟨p, by simp [emitBucket], by simp, ?_⟩
    intro q hq
    rcases List.mem_singleton.mp hq with h
    rw [h]
  | b0 :: b1 :: rest =>
    obtain ⟨hminMem, _, hmaxMem, hmaxGe⟩ := mmScan_spec cv b0 (b1 :: rest)
    refine ⟨(mmScan cv b0 (b1 :: rest)).maxPoint, ?_, hmaxMem, hmaxGe⟩
    simp only [emitBucket]
    split
    · split
      · simp
      · rename_i hne
        push_neg at hne
        rw [hne]
        simp
    · split <;> simp

theorem emitBucket_all_eq {α : Type} [DecidableEq α] (cv : α → ℚ)
    (B : List α) (hB : B ≠ [])
    (hall : ∀ q ∈ B, ∀ r ∈ B, cv q = cv r) :
    emitBucket cv B = B.take 1 := by
  match B with
  | [] => exact absurd rfl hB
  | [p] => simp [emitBucket]
  | b0 :: b1 :: rest =>
    have hconst : mmScan cv b0 (b1 :: rest) = ⟨b0, b0, cv b0, cv b0⟩ := by
      rw [mmScan]
      exact mm_foldl_const cv (b0 :: b1 :: rest) ⟨b0, b0, cv b0, cv b0⟩
        (fun q hq => hall q hq b0 (by simp)) rfl
    simp [emitBucket, hconst]

/-- When the last bucket head differs from the true last element, appending
the true last element still yields a subsequence of the data. -/
theorem chunkHeads_append_getLast_sublist {α : Type} (bs : Nat) :
    ∀ (fuel : Nat) (l : List α) (last : α), l.length ≤ fuel →
      l.getLast? = some last →
      (((chunkListF bs fuel l).filterMap List.head?) ++ [last]).Sublist l ∨
      ((chunkListF bs fuel l).filterMap List.head?).getLast? = some last := by
  intro fuel
  induction fuel with
  | zero =>
    intro l last hl hlast
    have : l = [] := List.length_eq_zero.mp (Nat.le_zero.mp hl)
    subst this
    simp at hlast
  | succ n ih =>
    intro l last hl hlast
    cases l with
    | nil => simp at hlast
    | cons p rest =>
      simp only [chunkListF, List.filterMap_cons, List.head?_cons]
      cases hd : rest.drop (bs - 1) with
      | nil =>
        have hempty : chunkListF bs n ([] : List α) = [] := by
          cases n <;> rfl
        rw [hempty]
        simp only [List.filterMap_nil]
        cases rest with
        | nil =>
          right
          simp only [List.getLast?_singleton] at hlast ⊢
          exact hlast
        | cons r0 rest' =>
          left
          have hlast' : (r0 :: rest').getLast? = some last := by
            rwa [List.getLast?_cons_cons] at hlast
          have hmem : last ∈ r0 :: rest' := getLast_mem_of_eq hlast'
          exact (List.singleton_sublist.mpr hmem).cons₂ p
      | cons q d' =>
        have hrne : rest ≠ [] := by
          intro h
          rw [h] at hd
          simp at hd
        have hlrest : rest.getLast? = some last := by
          cases rest with
          | nil => exact absurd rfl hrne
          | cons r0 rest' => rwa [List.getLast?_cons_cons] at hlast
        have hldrop : (rest.drop (bs - 1)).getLast? = some last := by
          have hsplit : rest = rest.take (bs - 1) ++ rest.drop (bs - 1) :=
            (List.take_append_drop _ rest).symm
          rw [← hlrest]
          conv_rhs => rw [hsplit]
          rw [List.getLast?_append_of_ne_nil (rest.take (bs - 1)) (by rw [hd]; simp)]
        have hdlen : (q :: d').length ≤ n := by
          have h1 := List.length_drop (bs - 1) rest
          have h2 : rest.length + 1 ≤ n + 1 := by simpa using hl
          rw [← hd]
          omega
        have hldrop' : (q :: d').getLast? = some last := by rw [← hd]; exact hldrop
        rcases ih (q :: d') last hdlen hldrop' with h | h
        · left
          simp only [List.cons_append]
          refine List.Sublist.cons₂ p (h.trans ?_)
          rw [← hd]
          exact List.drop_sublist _ _
        · right
          cases hH : (chunkListF bs n (q :: d')).filterMap List.head? with
          | nil => rw [hH] at h; simp at h
          | cons h0 hs =>
            rw [hH] at h
            rw [List.getLast?_cons_cons]
            exact h

/-! ## Arithmetic helpers -/

theorem le_mul_ceilDiv (n b : Nat) (hb : 0 < b) : n ≤ b * ((n + b - 1) / b) := by
  have h := Nat.div_add_mod (n + b - 1) b
  have h2 : (n + b - 1) % b < b := Nat.mod_lt _ hb
  omega

/-! ## Unfolding lemmas for the samplers -/

theorem minMaxSample_below {α : Type} [DecidableEq α] (data : List α)
    (maxPoints : Nat) (valueKey : α → Option ℚ) (h : data.length ≤ maxPoints) :
    minMaxSample data maxPoints valueKey = data := by
  by_cases h0 : data.length = 0
  · have : data = [] := List.length_eq_zero.mp h0
    subst this
    simp [minMaxSample]
  · simp [minMaxSample, h0, h]

theorem minMaxSample_above {α : Type} [DecidableEq α] (data : List α)
    (maxPoints : Nat) (valueKey : α → Option ℚ) (h : ¬ data.length ≤ maxPoints) :
    minMaxSample data maxPoints valueKey
      = ((sampleBuckets data maxPoints).map
          (emitBucket (fun p => jsNumOr0 (valueKey p)))).flatten := by
  have h0 : data.length ≠ 0 := by
    intro hh
    rw [hh] at h
    omega
  simp [minMaxSample, h0, h]

theorem evenSample_above {α : Type} [DecidableEq α] (d0 : α) (rest : List α)
    (maxPoints : Nat) (h : ¬ (d0 :: rest).length ≤ maxPoints) :
    evenSample (d0 :: rest) maxPoints =
      if (evenHeads (d0 :: rest) maxPoints).getLast?
          ≠ some ((d0 :: rest).getLast (by simp))
      then evenHeads (d0 :: rest) maxPoints ++ [(d0 :: rest).getLast (by simp)]
      else evenHeads (d0 :: rest) maxPoints := by
  simp only [evenSample, if_neg h]

/-! ## Claim theorems: the two samplers -/

/-- C1 (counterexample): the spec scenario
`envelopeSample([{t:0,v:1},{t:1,v:9},{t:2,v:2},{t:3,v:0}], 2, "v")` does not
return the four input points: with `maxPoints = 2` the bucket size is
`ceil(4 / (2/2)) = 4`, not 2. -/
theorem envelope_scenario_counterexample :
    minMaxSample [((0:ℚ),(1:ℚ)), (1,9), (2,2), (3,0)] 2 (fun p => some p.2)
      ≠ [((0:ℚ),(1:ℚ)), (1,9), (2,2), (3,0)] := by decide

/-- C1 (amended): on `[{t:0,v:1},{t:1,v:9},{t:2,v:2},{t:3,v:0}]` with
`maxPoints = 2` the bucket size is `ceil(4 / (2/2)) = 4`, so there is one
bucket holding all four points; its min is `{t:3,v:0}`, its max `{t:1,v:9}`,
the max occurs first, and the result is `[{t:1,v:9},{t:3,v:0}]`. -/
theorem envelope_scenario_amended :
    bucketSizeOf 4 2 = 4
    ∧ sampleBuckets [((0:ℚ),(1:ℚ)), (1,9), (2,2), (3,0)] 2
        = [[((0:ℚ),(1:ℚ)), (1,9), (2,2), (3,0)]]
    ∧ minMaxSample [((0:ℚ),(1:ℚ)), (1,9), (2,2), (3,0)] 2 (fun p => some p.2)
        = [((1:ℚ),(9:ℚ)), (3,0)] := by decide

/-- C3: for every series whose length is at most `maxPoints` (including the
empty series), both `minMaxSample` and `evenSample` return their input
unchanged. -/
theorem samples_identity_below_threshold {α : Type} [DecidableEq α]
    (data : List α) (maxPoints : Nat) (valueKey : α → Option ℚ)
    (h : data.length ≤ maxPoints) :
    minMaxSample data maxPoints valueKey = data
    ∧ evenSample data maxPoints = data := by
  refine ⟨minMaxSample_below data maxPoints valueKey h, ?_⟩
  cases data with
  | nil => rfl
  | cons d0 rest =>
    have h' : rest.length + 1 ≤ maxPoints := by simpa using h
    simp [evenSample, h']

theorem samples_identity_below_threshold_witness :
    ([((1:ℚ),(5:ℚ))].length ≤ 3)
    ∧ (minMaxSample [((1:ℚ),(5:ℚ))] 3 (fun p => some p.2) = [((1:ℚ),(5:ℚ))]
       ∧ evenSample [((1:ℚ),(5:ℚ))] 3 = [((1:ℚ),(5:ℚ))]) :=
  ⟨by decide,
   samples_identity_below_threshold [((1:ℚ),(5:ℚ))] 3 (fun p => some p.2) (by decide)⟩

/-- C5: the output of each sampler is a subsequence of its input: every
output point is an input point and the original positions, read left to
right, are strictly increasing (`List.Sublist`). -/
theorem samples_are_subsequences {α : Type} [DecidableEq α]
    (data : List α) (maxPoints : Nat) (valueKey : α → Option ℚ) :
    (minMaxSample data maxPoints valueKey).Sublist data
    ∧ (evenSample data maxPoints).Sublist data := by
  constructor
  · by_cases h1 : data.length ≤ maxPoints
    · rw [minMaxSample_below data maxPoints valueKey h1]
    · rw [minMaxSample_above data maxPoints valueKey h1]
      have hsub := flatten_map_sublist (emitBucket (fun p => jsNumOr0 (valueKey p)))
        (sampleBuckets data maxPoints)
        (fun B _ => emitBucket_sublist _ B)
      have hflat : (sampleBuckets data maxPoints).flatten = data :=
        chunkList_flatten _ data
      rw [hflat] at hsub
      exact hsub
  · cases data with
    | nil => simp [evenSample]
    | cons d0 rest =>
      by_cases h1 : (d0 :: rest).length ≤ maxPoints
      · have h1' : rest.length + 1 ≤ maxPoints := by simpa using h1
        simp [evenSample, h1']
      · rw [evenSample_above d0 rest maxPoints h1]
        have hlast : (d0 :: rest).getLast? = some ((d0 :: rest).getLast (by simp)) :=
          List.getLast?_eq_getLast_of_ne_nil (by simp)
        have hheads : evenHeads (d0 :: rest) maxPoints
            = (chunkListF (evenStep (d0 :: rest).length maxPoints)
                (d0 :: rest).length (d0 :: rest)).filterMap List.head? := rfl
        rcases chunkHeads_append_getLast_sublist
            (evenStep (d0 :: rest).length maxPoints)
            (d0 :: rest).length (d0 :: rest) ((d0 :: rest).getLast (by simp))
            le_rfl hlast with h | h
        · split
          · rw [hheads]
            exact h
          · exact (chunkListF_heads_sublist _ _ _)
        · split
          · rename_i hne
            rw [hheads] at hne
            exact absurd h hne
          · exact (chunkListF_heads_sublist _ _ _)

/-- C4: the length of the output of `minMaxSample` is at most
`2 * ceil(length / bucketSize)` — at most two points per bucket — where
`bucketSize` is the size the code computes (`ceil(length / (maxPoints/2))`
for `maxPoints ≥ 1`). -/
theorem minMaxSample_bounded_output {α : Type} [DecidableEq α]
    (data : List α) (maxPoints : Nat) (valueKey : α → Option ℚ) :
    (minMaxSample data maxPoints valueKey).length
      ≤ 2 * ((data.length + bucketSizeOf data.length maxPoints - 1)
              / bucketSizeOf data.length maxPoints) := by
  by_cases h0 : data.length = 0
  · have : data = [] := List.length_eq_zero.mp h0
    subst this
    simp [minMaxSample]
  · by_cases h1 : data.length ≤ maxPoints
    · rw [minMaxSample_below data maxPoints valueKey h1]
      have hmp : 1 ≤ maxPoints := by omega
      have hbs : bucketSizeOf data.length maxPoints = 1
          ∨ bucketSizeOf data.length maxPoints = 2 := by
        unfold bucketSizeOf
        rw [if_neg (by omega)]
        have hub : (2 * data.length + maxPoints - 1) / maxPoints < 3 :=
          Nat.div_lt_of_lt_mul (by omega)
        have hlb : 1 ≤ (2 * data.length + maxPoints - 1) / maxPoints :=
          (Nat.le_div_iff_mul_le (by omega)).mpr (by omega)
        omega
      rcases hbs with h | h <;> rw [h] <;> omega
    · rw [minMaxSample_above data maxPoints valueKey h1]
      have hbs1 : 1 ≤ bucketSizeOf data.length maxPoints := by
        unfold bucketSizeOf
        split
        · omega
        · rename_i hmp
          exact (Nat.le_div_iff_mul_le (by omega)).mpr (by omega)
      have hlen := flatten_map_length_le (emitBucket (fun p => jsNumOr0 (valueKey p)))
        (sampleBuckets data maxPoints)
        (fun B _ => emitBucket_length_le _ B)
      have hcount := chunkListF_length_le (bucketSizeOf data.length maxPoints)
        data.length data
        ((data.length + bucketSizeOf data.length maxPoints - 1)
          / bucketSizeOf data.length maxPoints)
        le_rfl
        (le_mul_ceilDiv data.length (bucketSizeOf data.length maxPoints) hbs1)
      have hbuckets : (sampleBuckets data maxPoints).length
          = (chunkListF (bucketSizeOf data.length maxPoints) data.length data).length := rfl
      omega

/-- C2: for every bucket produced by the bucketing rule, a point attaining
the bucket's minimum coerced value and a point attaining its maximum coerced
value (missing/non-numeric values coerce to `0`, the point itself is emitted
unchanged) both appear in the output of `minMaxSample`; and when the min and
the max are the same point (all coerced values of the bucket equal), the
bucket's emission is that single point. -/
theorem minMaxSample_extrema {α : Type} [DecidableEq α]
    (data : List α) (maxPoints : Nat) (valueKey : α → Option ℚ)
    (B : List α) (hB : B ∈ sampleBuckets data maxPoints) (hne : B ≠ []) :
    (∃ p, p ∈ minMaxSample data maxPoints valueKey ∧ p ∈ B
        ∧ ∀ q ∈ B, jsNumOr0 (valueKey p) ≤ jsNumOr0 (valueKey q))
    ∧ (∃ p, p ∈ minMaxSample data maxPoints valueKey ∧ p ∈ B
        ∧ ∀ q ∈ B, jsNumOr0 (valueKey q) ≤ jsNumOr0 (valueKey p))
    ∧ ((∀ q ∈ B, ∀ r ∈ B, jsNumOr0 (valueKey q) = jsNumOr0 (valueKey r)) →
        emitBucket (fun p => jsNumOr0 (valueKey p)) B = B.take 1) := by
  refine ⟨?_, ?_, fun hall =>
    emitBucket_all_eq (fun p => jsNumOr0 (valueKey p)) B hne hall⟩
  · obtain ⟨p, hpE, hpB, hbound⟩ :=
      emitBucket_min_mem (fun p => jsNumOr0 (valueKey p)) B hne
    refine ⟨p, ?_, hpB, hbound⟩
    by_cases h1 : data.length ≤ maxPoints
    · rw [minMaxSample_below data maxPoints valueKey h1]
      exact chunkList_mem_subset _ data B hB p hpB
    · rw [minMaxSample_above data maxPoints valueKey h1]
      exact List.mem_flatten.mpr ⟨_, List.mem_map_of_mem _ hB, hpE⟩
  · obtain ⟨p, hpE, hpB, hbound⟩ :=
      emitBucket_max_mem (fun p => jsNumOr0 (valueKey p)) B hne
    refine ⟨p, ?_, hpB, hbound⟩
    by_cases h1 : data.length ≤ maxPoints
    · rw [minMaxSample_below data maxPoints valueKey h1]
      exact chunkList_mem_subset _ data B hB p hpB
    · rw [minMaxSample_above data maxPoints valueKey h1]
      exact List.mem_flatten.mpr ⟨_, List.mem_map_of_mem _ hB, hpE⟩

theorem minMaxSample_extrema_witness :
    ([((0:ℚ),(1:ℚ)), (1,9), (2,2), (3,0)]
        ∈ sampleBuckets [((0:ℚ),(1:ℚ)), (1,9), (2,2), (3,0)] 2)
    ∧ ([((0:ℚ),(1:ℚ)), (1,9), (2,2), (3,0)] ≠ [])
    ∧ ((∃ p, p ∈ minMaxSample [((0:ℚ),(1:ℚ)), (1,9), (2,2), (3,0)] 2
            (fun p => some p.2)
          ∧ p ∈ [((0:ℚ),(1:ℚ)), (1,9), (2,2), (3,0)]
          ∧ ∀ q ∈ [((0:ℚ),(1:ℚ)), (1,9), (2,2), (3,0)],
              jsNumOr0 (some p.2) ≤ jsNumOr0 (some q.2))
      ∧ (∃ p, p ∈ minMaxSample [((0:ℚ),(1:ℚ)), (1,9), (2,2), (3,0)] 2
            (fun p => some p.2)
          ∧ p ∈ [((0:ℚ),(1:ℚ)), (1,9), (2,2), (3,0)]
          ∧ ∀ q ∈ [((0:ℚ),(1:ℚ)), (1,9), (2,2), (3,0)],
              jsNumOr0 (some q.2) ≤ jsNumOr0 (some p.2))
      ∧ ((∀ q ∈ [((0:ℚ),(1:ℚ)), (1,9), (2,2), (3,0)],
            ∀ r ∈ [((0:ℚ),(1:ℚ)), (1,9), (2,2), (3,0)],
              jsNumOr0 (some q.2) = jsNumOr0 (some r.2)) →
          emitBucket (fun p => jsNumOr0 (some p.2))
              [((0:ℚ),(1:ℚ)), (1,9), (2,2), (3,0)]
            = [((0:ℚ),(1:ℚ)), (1,9), (2,2), (3,0)].take 1)) :=
  ⟨by decide, by decide,
   minMaxSample_extrema [((0:ℚ),(1:ℚ)), (1,9), (2,2), (3,0)] 2
     (fun p => some p.2) [((0:ℚ),(1:ℚ)), (1,9), (2,2), (3,0)]
     (by decide) (by decide)⟩

theorem evenHeads_head {α : Type} (d0 : α) (rest : List α) (maxPoints : Nat) :
    (evenHeads (d0 :: rest) maxPoints).head? = some d0 := by
  simp [evenHeads, chunkList, chunkListF]

/-- C7: for every non-empty series, the output of `evenSample` starts with
the input's first point and ends with the input's last point (the true last
point being appended whenever the stride would have skipped it). -/
theorem evenSample_first_last {α : Type} [DecidableEq α]
    (data : List α) (maxPoints : Nat) (h : data ≠ []) :
    (evenSample data maxPoints).head? = data.head?
    ∧ (evenSample data maxPoints).getLast? = data.getLast? := by
  cases data with
  | nil => exact absurd rfl h
  | cons d0 rest =>
    by_cases h1 : (d0 :: rest).length ≤ maxPoints
    · have h1' : rest.length + 1 ≤ maxPoints := by simpa using h1
      simp [evenSample, h1']
    · rw [evenSample_above d0 rest maxPoints h1]
      have hheadE := evenHeads_head d0 rest maxPoints
      have hlastD : (d0 :: rest).getLast? = some ((d0 :: rest).getLast (by simp)) :=
        List.getLast?_eq_getLast_of_ne_nil (by simp)
      split
      · constructor
        · rw [List.head?_append, hheadE]
          simp
        · rw [List.getLast?_append_of_ne_nil _ (by simp), hlastD]
          simp
      · rename_i hEq
        have hEq' : (evenHeads (d0 :: rest) maxPoints).getLast?
            = some ((d0 :: rest).getLast (by simp)) := not_ne_iff.mp hEq
        constructor
        · rw [hheadE]
          simp
        · rw [hEq', hlastD]

theorem evenSample_first_last_witness :
    ([((0:ℚ),(1:ℚ)), (1,9), (2,2), (3,0), (4,5)] ≠ [])
    ∧ ((evenSample [((0:ℚ),(1:ℚ)), (1,9), (2,2), (3,0), (4,5)] 2).head?
          = [((0:ℚ),(1:ℚ)), (1,9), (2,2), (3,0), (4,5)].head?
       ∧ (evenSample [((0:ℚ),(1:ℚ)), (1,9), (2,2), (3,0), (4,5)] 2).getLast?
          = [((0:ℚ),(1:ℚ)), (1,9), (2,2), (3,0), (4,5)].getLast?) :=
  ⟨by decide,
   evenSample_first_last [((0:ℚ),(1:ℚ)), (1,9), (2,2), (3,0), (4,5)] 2 (by decide)⟩

/-- C10: for `maxPoints ≥ 1`, the output of `evenSample` has length at most
`maxPoints + 1`: the stride emits at most `maxPoints` points and the forced
append of the true last point can add exactly one more, so `maxPoints` is not
a strict bound on the output size. -/
theorem evenSample_length_le {α : Type} [DecidableEq α]
    (data : List α) (maxPoints : Nat) (h : 1 ≤ maxPoints) :
    (evenSample data maxPoints).length ≤ maxPoints + 1 := by
  cases data with
  | nil => simp [evenSample]
  | cons d0 rest =>
    by_cases h1 : (d0 :: rest).length ≤ maxPoints
    · have h1' : rest.length + 1 ≤ maxPoints := by simpa using h1
      simp [evenSample, h1']
      omega
    · rw [evenSample_above d0 rest maxPoints h1]
      have hstep : evenStep (d0 :: rest).length maxPoints
          = ((d0 :: rest).length + maxPoints - 1) / maxPoints := by
        unfold evenStep
        rw [if_neg (by omega)]
      have hcap : (d0 :: rest).length
          ≤ evenStep (d0 :: rest).length maxPoints * maxPoints := by
        rw [hstep, Nat.mul_comm]
        exact le_mul_ceilDiv (d0 :: rest).length maxPoints (by omega)
      have hchunks := chunkListF_length_le (evenStep (d0 :: rest).length maxPoints)
        (d0 :: rest).length (d0 :: rest) maxPoints le_rfl hcap
      have hfm : (evenHeads (d0 :: rest) maxPoints).length
          ≤ (chunkListF (evenStep (d0 :: rest).length maxPoints)
              (d0 :: rest).length (d0 :: rest)).length :=
        List.length_filterMap_le _ _
      split
      · rw [List.length_append]
        simp only [List.length_singleton]
        omega
      · omega

theorem evenSample_length_le_witness :
    1 ≤ 2
    ∧ (evenSample [((0:ℚ),(1:ℚ)), (1,9), (2,2), (3,0), (4,5)] 2).length ≤ 2 + 1
    ∧ (evenSample [((0:ℚ),(1:ℚ)), (1,9), (2,2), (3,0), (4,5)] 2).length = 3 :=
  ⟨by decide,
   evenSample_length_le [((0:ℚ),(1:ℚ)), (1,9), (2,2), (3,0), (4,5)] 2 (by decide),
   by decide⟩

/-! ## Claim theorems: rendering-limit guard and date formatter -/

/-- C8: the guard returns its decision as data for every input: above
`2 * 500 = 1000` points it demands a fallback with a reason naming the point
count (this check taking precedence over the category check); otherwise a
supplied category count above 12 demands a fallback with a reason naming the
category count; otherwise no fallback and no reason. -/
theorem checkRenderingLimits_spec (pointCount : Nat) (categoryCount : Option Nat) :
    (1000 < pointCount →
      checkRenderingLimits pointCount categoryCount
        = ⟨true, some ((r"Too many data points (") ++ toString pointCount
            ++ (r") for chart rendering"))⟩)
    ∧ (pointCount ≤ 1000 → ∀ c, categoryCount = some c → 12 < c →
        checkRenderingLimits pointCount categoryCount
          = ⟨true, some ((r"Too many categories (") ++ toString c
              ++ (r") for readable chart"))⟩)
    ∧ (pointCount ≤ 1000 → (∀ c, categoryCount = some c → c ≤ 12) →
        checkRenderingLimits pointCount categoryCount = ⟨false, none⟩) := by
  refine ⟨?_, ?_, ?_⟩
  · intro h
    unfold checkRenderingLimits
    rw [if_pos (by omega)]
  · intro h c hc hgt
    subst hc
    unfold checkRenderingLimits
    rw [if_neg (by omega)]
    simp only []
    rw [if_pos ⟨by omega, hgt⟩]
  · intro h hcat
    unfold checkRenderingLimits
    rw [if_neg (by omega)]
    cases categoryCount with
    | none => rfl
    | some c =>
      have hc := hcat c rfl
      simp only []
      rw [if_neg (by intro hand; omega)]

theorem checkRenderingLimits_spec_witness :
    1000 < 1200
    ∧ checkRenderingLimits 1200 none
        = ⟨true, some (r"Too many data points (1200) for chart rendering")⟩ :=
  ⟨by decide, by
    rw [(checkRenderingLimits_spec 1200 none).1 (by decide)]
    decide⟩

/-- C9: `formatDateLabel` is a total function: a string that is neither a
bare 4-digit year nor a parseable ISO-prefixed date is returned unchanged, a
number or a bare 4-digit year is returned unchanged (as its string form), and
the `auto` granularity yields exactly the same output as `year` on every
input. -/
theorem formatDateLabel_spec (env : DateEnv) (value : AxisValue)
    (format : DateGranularity) :
    (∀ s, value = AxisValue.str s → isBareYear s = false →
      (isoDateShape s = false ∨ env.parseOk s = false) →
      formatDateLabel env value format = s)
    ∧ (∀ n, value = AxisValue.num n →
        formatDateLabel env value format = toString n)
    ∧ (∀ s, value = AxisValue.str s → isBareYear s = true →
        formatDateLabel env value format = s)
    ∧ formatDateLabel env value DateGranularity.auto
        = formatDateLabel env value DateGranularity.year := by
  refine ⟨?_, ?_, ?_, ?_⟩
  · rintro s rfl hbare hfail
    rcases hfail with hiso | hparse
    · simp [formatDateLabel, jsString, hbare, hiso]
    · by_cases hiso : isoDateShape s
      · simp [formatDateLabel, jsString, hbare, hiso, hparse]
      · simp [formatDateLabel, jsString, hbare, hiso]
  · rintro n rfl
    simp [formatDateLabel, jsString]
  · rintro s rfl hbare
    simp [formatDateLabel, jsString, hbare]
  · cases value with
    | num n => simp [formatDateLabel, jsString]
    | str s =>
      by_cases hbare : isBareYear s
      · simp [formatDateLabel, jsString, hbare]
      · by_cases hiso : isoDateShape s
        · by_cases hpk : env.parseOk s
          · simp [formatDateLabel, jsString, hbare, hiso, hpk]
          · simp [formatDateLabel, jsString, hbare, hiso, hpk]
        · simp [formatDateLabel, jsString, hbare, hiso]

theorem formatDateLabel_spec_witness :
    (AxisValue.str ("not-a-date") = AxisValue.str ("not-a-date"))
    ∧ isBareYear ("not-a-date") = false
    ∧ (isoDateShape ("not-a-date") = false
        ∨ trivialDateEnv.parseOk ("not-a-date") = false)
    ∧ formatDateLabel trivialDateEnv (AxisValue.str ("not-a-date"))
        DateGranularity.month = "not-a-date" :=
  ⟨rfl, by decide, Or.inl (by decide),
   (formatDateLabel_spec trivialDateEnv (AxisValue.str ("not-a-date"))
       DateGranularity.month).1 ("not-a-date") rfl (by decide)
     (Or.inl (by decide))⟩

/-! ## Tick planner lemmas -/

theorem tickLoop_bounds (minV maxV step : ℚ) (maxTicks : Nat) :
    ∀ (fuel : Nat) (tick : ℚ) (cnt : Nat),
      ∀ t ∈ tickLoop minV maxV step maxTicks fuel tick cnt,
        minV ≤ t ∧ t ≤ maxV := by
  intro fuel
  induction fuel with
  | zero =>
    intro tick cnt t ht
    simp [tickLoop] at ht
  | succ n ih =>
    intro tick cnt t ht
    simp only [tickLoop] at ht
    split at ht
    · rename_i hle
      split at ht
      · rename_i hge
        rcases List.mem_cons.mp ht with h | h
        · subst h
          exact ⟨hge, hle⟩
        · split at h
          · simp at h
          · exact ih _ _ t h
      · split at ht
        · simp at ht
        · exact ih _ _ t ht
    · simp at ht

theorem tickLoop_length (minV maxV step : ℚ) (maxTicks : Nat) :
    ∀ (fuel : Nat) (tick : ℚ) (cnt : Nat), cnt < maxTicks →
      (tickLoop minV maxV step maxTicks fuel tick cnt).length ≤ maxTicks - cnt := by
  intro fuel
  induction fuel with
  | zero =>
    intro tick cnt hcnt
    simp [tickLoop]
  | succ n ih =>
    intro tick cnt hcnt
    simp only [tickLoop]
    split
    · split
      · split
        · simp
          omega
        · rename_i hlt
          push_neg at hlt
          have := ih (tick + step) (cnt + 1) (by omega)
          simp only [List.length_cons]
          omega
      · split
        · simp
        · have := ih (tick + step) cnt hcnt
          omega
    · simp

theorem tickLoop_head (minV maxV step : ℚ) (maxTicks : Nat)
    (fuel : Nat) (tick : ℚ) (cnt : Nat) (h : minV ≤ tick) :
    ∀ x, (tickLoop minV maxV step maxTicks fuel tick cnt).head? = some x →
      x = tick := by
  intro x hx
  cases fuel with
  | zero => simp [tickLoop] at hx
  | succ n =>
    simp only [tickLoop, if_pos h] at hx
    split at hx
    · simp only [List.head?_cons, Option.some_inj] at hx
      exact hx.symm
    · simp at hx

theorem tickLoop_chain (minV maxV step : ℚ) (maxTicks : Nat) (hstep : 0 ≤ step) :
    ∀ (fuel : Nat) (tick : ℚ) (cnt : Nat),
      List.Chain' (fun a b => b = a + step)
        (tickLoop minV maxV step maxTicks fuel tick cnt) := by
  intro fuel
  induction fuel with
  | zero =>
    intro tick cnt
    simp [tickLoop]
  | succ n ih =>
    intro tick cnt
    simp only [tickLoop]
    split
    · rename_i hle
      split
      · rename_i hge
        rw [List.chain'_cons']
        constructor
        · intro y hy
          split at hy
          · simp at hy
          · exact (tickLoop_head minV maxV step maxTicks n (tick + step) (cnt + 1)
              (le_trans hge (by linarith)) y hy).symm ▸ rfl
        · split
          · simp
          · exact ih (tick + step) (cnt + 1)
      · split
        · simp
        · exact ih (tick + step) cnt
    · simp

theorem niceStepOf_pos (data : List ℚ) (maxTicks : Nat) :
    0 < niceStepOf data maxTicks := by
  have hm : 0 < (10 : ℚ) ^ floorLog10 (roughStepOf data maxTicks) :=
    zpow_pos (by norm_num) _
  simp only [niceStepOf]
  split
  · exact hm
  · split
    · linarith
    · split
      · linarith
      · linarith

theorem niceStepOf_form (data : List ℚ) (maxTicks : Nat) :
    ∃ k : ℤ, niceStepOf data maxTicks = (10:ℚ) ^ k
      ∨ niceStepOf data maxTicks = 2 * (10:ℚ) ^ k
      ∨ niceStepOf data maxTicks = 5 * (10:ℚ) ^ k := by
  simp only [niceStepOf]
  split
  · exact ⟨floorLog10 (roughStepOf data maxTicks), Or.inl rfl⟩
  · split
    · exact ⟨floorLog10 (roughStepOf data maxTicks), Or.inr (Or.inl rfl)⟩
    · split
      · exact ⟨floorLog10 (roughStepOf data maxTicks), Or.inr (Or.inr rfl)⟩
      · refine ⟨floorLog10 (roughStepOf data maxTicks) + 1, Or.inl ?_⟩
        rw [zpow_add_one₀ (by norm_num)]
        ring

theorem calculateTicks_nondegenerate (data : List ℚ) (maxTicks : Nat)
    (h0 : ¬ data.length = 0) (hr : ¬ listMax data - listMin data = 0) :
    calculateTicks data maxTicks
      = tickLoop (listMin data) (listMax data) (niceStepOf data maxTicks)
          maxTicks (maxTicks + 2)
          ((⌊listMin data / niceStepOf data maxTicks⌋ : ℚ)
            * niceStepOf data maxTicks) 0 := by
  simp only [calculateTicks, if_neg h0, if_neg hr]

/-! ## Claim theorems: tick planner -/

/-- C6 (counterexample): `calculateTicks([0, 97], 10)` stops at 90 — every
tick is strictly below the observed maximum 97, so the tick set does not
cover the range `[min, max]`. -/
theorem calculateTicks_coverage_counterexample :
    calculateTicks [(0:ℚ), 97] 10 = [0,10,20,30,40,50,60,70,80,90]
    ∧ listMax [(0:ℚ), 97] = 97
    ∧ ∀ t ∈ calculateTicks [(0:ℚ), 97] 10, t < listMax [(0:ℚ), 97] := by
  have h : calculateTicks [(0:ℚ), 97] 10 = [0,10,20,30,40,50,60,70,80,90] := by
    norm_num [calculateTicks, niceStepOf, roughStepOf, listMin, listMax, floorLog10,
      natLog10, natLog10F, tickLoop]
  refine ⟨h, by decide, ?_⟩
  rw [h]
  decide

/-- C6 (amended): for a non-empty input with `min < max` and `maxTicks ≥ 1`,
`calculateTicks` returns a strictly increasing sequence spaced by a single
nice step (a power of 10 times 1, 2 or 5), with at most `maxTicks` entries,
no tick below the observed minimum and no tick above the observed maximum
(the sequence may stop short of `max` when the `maxTicks` cap is reached). -/
theorem calculateTicks_props (data : List ℚ) (maxTicks : Nat)
    (hne : data ≠ []) (hmt : 1 ≤ maxTicks)
    (hrange : listMin data < listMax data) :
    ∃ step : ℚ,
      (∃ k : ℤ, step = (10:ℚ) ^ k ∨ step = 2 * (10:ℚ) ^ k
        ∨ step = 5 * (10:ℚ) ^ k)
      ∧ 0 < step
      ∧ List.Chain' (fun a b => b = a + step) (calculateTicks data maxTicks)
      ∧ (calculateTicks data maxTicks).Pairwise (· < ·)
      ∧ (calculateTicks data maxTicks).length ≤ maxTicks
      ∧ ∀ t ∈ calculateTicks data maxTicks,
          listMin data ≤ t ∧ t ≤ listMax data := by
  have h0 : ¬ data.length = 0 := by
    intro hh
    exact hne (List.length_eq_zero.mp hh)
  have hr : ¬ listMax data - listMin data = 0 := by
    intro hh
    have : listMax data = listMin data := by linarith
    rw [this] at hrange
    exact lt_irrefl _ hrange
  have hunfold := calculateTicks_nondegenerate data maxTicks h0 hr
  have hchain : List.Chain' (fun a b => b = a + niceStepOf data maxTicks)
      (calculateTicks data maxTicks) := by
    rw [hunfold]
    exact tickLoop_chain _ _ _ _ (le_of_lt (niceStepOf_pos data maxTicks)) _ _ _
  refine ⟨niceStepOf data maxTicks, niceStepOf_form data maxTicks,
    niceStepOf_pos data maxTicks, hchain, ?_, ?_, ?_⟩
  · have hlt : List.Chain' (· < ·) (calculateTicks data maxTicks) := by
      refine List.Chain'.imp ?_ hchain
      intro a b hab
      rw [hab]
      have := niceStepOf_pos data maxTicks
      linarith
    rwa [List.chain'_iff_pairwise] at hlt
  · rw [hunfold]
    have := tickLoop_length (listMin data) (listMax data)
      (niceStepOf data maxTicks) maxTicks (maxTicks + 2)
      ((⌊listMin data / niceStepOf data maxTicks⌋ : ℚ)
        * niceStepOf data maxTicks) 0 (by omega)
    omega
  · rw [hunfold]
    exact tickLoop_bounds _ _ _ _ _ _ _

theorem calculateTicks_props_witness :
    ([(0:ℚ), 97] ≠ []) ∧ 1 ≤ 10 ∧ listMin [(0:ℚ), 97] < listMax [(0:ℚ), 97]
    ∧ (∃ step : ℚ,
        (∃ k : ℤ, step = (10:ℚ) ^ k ∨ step = 2 * (10:ℚ) ^ k
          ∨ step = 5 * (10:ℚ) ^ k)
        ∧ 0 < step
        ∧ List.Chain' (fun a b => b = a + step) (calculateTicks [(0:ℚ), 97] 10)
        ∧ (calculateTicks [(0:ℚ), 97] 10).Pairwise (· < ·)
        ∧ (calculateTicks [(0:ℚ), 97] 10).length ≤ 10
        ∧ ∀ t ∈ calculateTicks [(0:ℚ), 97] 10,
            listMin [(0:ℚ), 97] ≤ t ∧ t ≤ listMax [(0:ℚ), 97]) :=
  ⟨by decide, by decide, by decide,
   calculateTicks_props [(0:ℚ), 97] 10 (by decide) (by decide) (by decide)⟩

